import Mathlib

/-!
Verification of the `use-stream-audio` core (src/useStreamAudio.ts together
with the engine hooks src/useWebAudio.ts and src/useHTML5Audio.ts).

Two shallow embeddings are developed:

1. The byte-stream decoding / scheduling / accumulation loop of
   `streamAudio` (useStreamAudio.ts, lines 143-261) is modelled as a fold
   of `decodeStep` over the list of delivered chunks.  Bytes are `Nat`s
   and a decoded Float32 sample is represented by its 4-byte group (the
   code never inspects sample values, only regroups bytes), so byte-exact
   conservation statements can be made.  Times are exact rationals `ℚ`
   (the JS code uses the same arithmetic shape on floats).

2. The session state machine (transition effect, stop/play/pause/rewind,
   resetState) is modelled as a `Session` record with one pure function
   per source function and an event-step relation for traces.
-/

namespace StreamAudio

/-- A raw byte of the incoming stream (values are irrelevant to the core,
only grouping matters, so plain `Nat` suffices). -/
abbrev Byte := Nat

/-- Grouping of a byte list into complete 4-byte groups, each group being
one decoded little-endian Float32 sample (`new Float32Array(data.buffer, 0,
length / 4)` in useStreamAudio.ts line 170); an incomplete trailing group
is not produced. -/
def groups4 : List Byte → List (List Byte)
  | a :: b :: c :: d :: rest => [a, b, c, d] :: groups4 rest
  | _ => []

/-- State of the `streamAudio` ingestion loop (useStreamAudio.ts lines
148-153): `leftover` bytes carried between chunks, the scheduler's
`nextStartTime`, the running `totalDuration`, the accumulated `allBuffers`
list, and the list of scheduled buffers as (start time, sample count)
pairs (`createAndScheduleAudioSource` at `nextStartTime`, lines 189-195). -/
structure DecState where
  leftover : List Byte
  nextStartTime : ℚ
  totalDuration : ℚ
  allBuffers : List (List (List Byte))
  schedule : List (ℚ × ℕ)
deriving DecidableEq

/-- One iteration of the `while (!result.done ...)` loop of `streamAudio`
(useStreamAudio.ts lines 160-196): prepend the leftover to the incoming
chunk, truncate to the largest multiple of 4, decode that prefix into
samples, keep the remainder as the new leftover, and if any sample was
produced, accumulate the buffer and schedule it at `nextStartTime`,
advancing `nextStartTime` by the buffer duration
`buffer.length / sampleRate`. -/
def decodeStep (rate : ℕ) (s : DecState) (incoming : List Byte) : DecState :=
  let data := s.leftover ++ incoming
  let len := data.length / 4 * 4
  let buffer := groups4 (data.take len)
  let leftover1 := data.drop len
  if buffer.length = 0 then
    { s with leftover := leftover1 }
  else
    let dur : ℚ := (buffer.length : ℚ) / (rate : ℚ)
    { leftover := leftover1
      nextStartTime := s.nextStartTime + dur
      totalDuration := s.totalDuration + dur
      allBuffers := s.allBuffers ++ [buffer]
      schedule := s.schedule ++ [(s.nextStartTime, buffer.length)] }

/-- The loop state at the start of `streamAudio`: empty leftover, no
buffers, `nextStartTime` anchored at the engine clock reading `t0`
(`webAudio.getCurrentTime()`, line 148). -/
def initState (t0 : ℚ) : DecState :=
  { leftover := [], nextStartTime := t0, totalDuration := 0,
    allBuffers := [], schedule := [] }

/-- An uninterrupted streaming session: every delivered chunk is processed
in order by `decodeStep`. -/
def runSession (rate : ℕ) (t0 : ℚ) (chunks : List (List Byte)) : DecState :=
  chunks.foldl (decodeStep rate) (initState t0)

/-- Total number of decoded samples held in the accumulated buffers. -/
def totalSamples (s : DecState) : ℕ :=
  (s.allBuffers.map List.length).sum

/-- All decoded bytes, in order: the accumulated buffers flattened down to
the byte level. -/
def decodedBytes (s : DecState) : List Byte :=
  s.allBuffers.flatten.flatten

/-- The finalization step of `streamAudio` (lines 200-219): concatenate
`allBuffers` into one complete buffer and report its duration
`completeBuffer.length / sampleRate`. -/
def finalize (rate : ℕ) (s : DecState) : List (List Byte) × ℚ :=
  let completeBuffer := s.allBuffers.flatten
  (completeBuffer, (completeBuffer.length : ℚ) / (rate : ℚ))

/-- A whole `streamAudio` call at the decode/accumulate level: run the
loop over all chunks and, mirroring lines 198-259, build the complete
accumulated buffer only in the loop iteration in which the read reports
done — which exists only when the loop was entered at least once
(`chunks ≠ []`) — and only when `enableTransition` is set. -/
def streamAudioRun (rate : ℕ) (t0 : ℚ) (enableTransition : Bool)
    (chunks : List (List Byte)) : DecState × Option (List (List Byte) × ℚ) :=
  let s := runSession rate t0 chunks
  if chunks.isEmpty || !enableTransition then (s, none)
  else (s, some (finalize rate s))

/-- Duration, in seconds, of one scheduled entry. -/
def entryDur (rate : ℕ) (e : ℚ × ℕ) : ℚ :=
  (e.2 : ℚ) / (rate : ℚ)

/-- Total duration of a list of scheduled entries. -/
def sumDur (rate : ℕ) (l : List (ℚ × ℕ)) : ℚ :=
  (l.map (entryDur rate)).sum

/-- The schedule list is contiguous starting from time `t`: each entry
starts exactly where the previous one ends. -/
def contiguousFrom (rate : ℕ) : ℚ → List (ℚ × ℕ) → Prop
  | _, [] => True
  | t, e :: rest => e.1 = t ∧ contiguousFrom rate (t + entryDur rate e) rest

/-- Observable state of one `useStreamAudio` session together with the
state of the two engines it drives.  `isPlaying`, `isAudioReady`,
`isAudioTransitioned`, `currentTime` are the hook's React states;
`webActive` records whether the Web Audio engine still holds active
sources, `webSuspended` whether its context is suspended; `html5Pos` and
`html5Playing` are the HTML5 element's `currentTime` and playing flag. -/
structure Session where
  enableTransition : Bool
  isPlaying : Bool
  isAudioReady : Bool
  isAudioTransitioned : Bool
  currentTime : ℚ
  webActive : Bool
  webSuspended : Bool
  html5Pos : ℚ
  html5Playing : Bool
deriving DecidableEq

/-- `useWebAudio.stopStream` (useWebAudio.ts lines 74-84): stop and clear
every active source (errors from already-finished sources are swallowed by
the try/catch, so the call is total) and report playing = false. -/
def stopStream (s : Session) : Session :=
  { s with webActive := false, isPlaying := false }

/-- `useWebAudio.pauseStream` (lines 89-92): suspend the context and
report playing = false. -/
def pauseStream (s : Session) : Session :=
  { s with webSuspended := true, isPlaying := false }

/-- `useWebAudio.playStream` (lines 97-103): resume the context and report
playing = true. -/
def playStream (s : Session) : Session :=
  { s with webSuspended := false, isPlaying := true }

/-- `useHTML5Audio.stopAudio` (useHTML5Audio.ts lines 182-187): pause,
reset the element position to 0, report playing = false. -/
def stopAudio (s : Session) : Session :=
  { s with html5Playing := false, html5Pos := 0, isPlaying := false }

/-- `useHTML5Audio.pauseAudio` (lines 192-195): pause without touching the
position. -/
def pauseAudio (s : Session) : Session :=
  { s with html5Playing := false, isPlaying := false }

/-- `useHTML5Audio.playAudio` (lines 200-203): play from the current
position. -/
def playAudio (s : Session) : Session :=
  { s with html5Playing := true, isPlaying := true }

/-- `useHTML5Audio.rewindAudio` (lines 208-217): move the element position
back by `seconds`, clamped below at 0, and resume playing when
`wasPlaying`. -/
def rewindAudio (seconds : ℚ) (wasPlaying : Bool) (s : Session) : Session :=
  let s1 := { s with html5Pos := max 0 (s.html5Pos - seconds) }
  if wasPlaying then playAudio s1 else s1

/-- `useStreamAudio.stop` (useStreamAudio.ts lines 263-270): dispatch to
the engine selected by `isAudioTransitioned`, then report playing =
false. -/
def stop (s : Session) : Session :=
  let s1 := if s.isAudioTransitioned then stopAudio s else stopStream s
  { s1 with isPlaying := false }

/-- `useStreamAudio.play` (lines 272-278). -/
def play (s : Session) : Session :=
  if s.isAudioTransitioned then playAudio s else playStream s

/-- `useStreamAudio.pause` (lines 280-286). -/
def pause (s : Session) : Session :=
  if s.isAudioTransitioned then pauseAudio s else pauseStream s

/-- `useStreamAudio.rewind` (lines 288-292): only acts after the
transition to the HTML5 engine. -/
def rewind (seconds : ℚ) (s : Session) : Session :=
  if s.isAudioTransitioned then rewindAudio seconds s.isPlaying s else s

/-- `useStreamAudio.resetState` (lines 302-307): stop, clear the ready and
transitioned flags, and reset the Web Audio engine (which stops the stream
again). -/
def resetState (s : Session) : Session :=
  let s1 := stop s
  let s2 := { s1 with isAudioReady := false, isAudioTransitioned := false }
  stopStream s2

/-- The transition effect of `useStreamAudio` (lines 107-123): when
transition is enabled and the audio is ready, capture the current
position, seek the HTML5 engine to it, mark the session transitioned and,
if playing, stop the streaming engine and start the HTML5 engine. -/
def transitionEffect (s : Session) : Session :=
  if s.enableTransition = false then s
  else if s.isAudioReady then
    let s1 := { s with html5Pos := s.currentTime, isAudioTransitioned := true }
    if s.isPlaying then playAudio (stopStream s1) else s1
  else s

/-- Events that can act on a session: the transition effect firing, the
HTML5 element's one-time `canplay` signal (which sets `isAudioReady`,
lines 228-231), the caller-facing controls, a time-tracking tick (lines
96-101, carrying the Web Audio clock reading), and the `resetState`
performed at the start of a new `streamAudio` call (line 144). -/
inductive Event where
  | effectFire
  | canplay
  | stopCall
  | playCall
  | pauseCall
  | rewindCall (seconds : ℚ)
  | tick (webClock : ℚ)
  | newSession
deriving DecidableEq

/-- One step of the session under an event. -/
def step (s : Session) : Event → Session
  | .effectFire => transitionEffect s
  | .canplay => { s with isAudioReady := true }
  | .stopCall => stop s
  | .playCall => play s
  | .pauseCall => pause s
  | .rewindCall q => rewind q s
  | .tick q =>
      if s.isPlaying then
        { s with currentTime := if s.isAudioTransitioned then s.html5Pos else q }
      else s
  | .newSession => resetState s

/-- The spec's TransitionState, derived from the session flags. -/
inductive TState where
  | Streaming
  | Ready
  | Transitioned
deriving DecidableEq

/-- Which transition state a session is in. -/
def transitionState (s : Session) : TState :=
  if s.isAudioTransitioned then .Transitioned
  else if s.isAudioReady then .Ready
  else .Streaming

/-- Number of times a trace of events makes the session enter the
transitioned state. -/
def flips : Session → List Event → ℕ
  | _, [] => 0
  | s, e :: es =>
      (if s.isAudioTransitioned = false ∧ (step s e).isAudioTransitioned = true
        then 1 else 0) + flips (step s e) es

/-- A concrete session sitting in the Ready state while playing, used as a
witness input. -/
def sReady : Session :=
  { enableTransition := true, isPlaying := true, isAudioReady := true,
    isAudioTransitioned := false, currentTime := 5, webActive := true,
    webSuspended := false, html5Pos := 0, html5Playing := false }

/-- A concrete session after the transition, used as a witness input. -/
def sAfter : Session :=
  { enableTransition := true, isPlaying := true, isAudioReady := true,
    isAudioTransitioned := true, currentTime := 5, webActive := false,
    webSuspended := false, html5Pos := 5, html5Playing := true }

theorem groups4_length : (xs : List Byte) → (groups4 xs).length = xs.length / 4
  | [] => by simp [groups4]
  | [_] => by simp [groups4]
  | [_, _] => by simp [groups4]
  | [_, _, _] => by simp [groups4]
  | a :: b :: c :: d :: rest => by
      have ih := groups4_length rest
      simp [groups4, ih]
      omega

theorem groups4_flatten : (xs : List Byte) → xs.length % 4 = 0 →
    (groups4 xs).flatten = xs
  | [], _ => by simp [groups4]
  | [_], h => by simp at h
  | [_, _], h => by simp at h
  | [_, _, _], h => by simp at h
  | a :: b :: c :: d :: rest, h => by
      have h4 : rest.length % 4 = 0 := by
        simp [List.length_cons] at h
        omega
      have ih := groups4_flatten rest h4
      simp [groups4, ih]

theorem decodeStep_small (rate : ℕ) (s : DecState) (c : List Byte)
    (h : (s.leftover ++ c).length < 4) :
    decodeStep rate s c = { s with leftover := s.leftover ++ c } := by
  have hN : s.leftover.length + c.length < 4 := by simpa using h
  have h0 : (s.leftover.length + c.length) / 4 * 4 = 0 := by omega
  simp [decodeStep, List.length_append, h0, groups4]

theorem decodeStep_large (rate : ℕ) (s : DecState) (c : List Byte)
    (h : 4 ≤ (s.leftover ++ c).length) :
    decodeStep rate s c =
      { leftover := (s.leftover ++ c).drop ((s.leftover ++ c).length / 4 * 4)
        nextStartTime := s.nextStartTime
          + (((s.leftover ++ c).length / 4 : ℕ) : ℚ) / (rate : ℚ)
        totalDuration := s.totalDuration
          + (((s.leftover ++ c).length / 4 : ℕ) : ℚ) / (rate : ℚ)
        allBuffers := s.allBuffers
          ++ [groups4 ((s.leftover ++ c).take ((s.leftover ++ c).length / 4 * 4))]
        schedule := s.schedule
          ++ [(s.nextStartTime, (s.leftover ++ c).length / 4)] } := by
  have hN : 4 ≤ s.leftover.length + c.length := by simpa using h
  have hcount :
      (groups4 (List.take ((s.leftover.length + c.length) / 4 * 4)
        (s.leftover ++ c))).length = (s.leftover.length + c.length) / 4 := by
    rw [groups4_length, List.length_take, List.length_append]
    omega
  have hne4 : ¬ (s.leftover.length + c.length) / 4 = 0 := by omega
  simp [decodeStep, List.length_append, hcount, hne4]

theorem decodeStep_samples (rate : ℕ) (s : DecState) (c : List Byte) :
    totalSamples (decodeStep rate s c)
      = totalSamples s + (s.leftover.length + c.length) / 4 := by
  rcases lt_or_le (s.leftover ++ c).length 4 with hs | hl
  · have hN : s.leftover.length + c.length < 4 := by simpa using hs
    rw [decodeStep_small rate s c hs]
    simp [totalSamples]
    omega
  · rw [decodeStep_large rate s c hl]
    simp [totalSamples, groups4_length, List.length_take, List.length_append]
    omega

theorem decodeStep_leftover_len (rate : ℕ) (s : DecState) (c : List Byte) :
    (decodeStep rate s c).leftover.length
      = (s.leftover.length + c.length) % 4 := by
  rcases lt_or_le (s.leftover ++ c).length 4 with hs | hl
  · have hN : s.leftover.length + c.length < 4 := by simpa using hs
    rw [decodeStep_small rate s c hs]
    simp
    omega
  · rw [decodeStep_large rate s c hl]
    simp [List.length_append]
    omega

theorem decodeStep_bytes (rate : ℕ) (s : DecState) (c : List Byte) :
    decodedBytes (decodeStep rate s c) ++ (decodeStep rate s c).leftover
      = decodedBytes s ++ s.leftover ++ c := by
  rcases lt_or_le (s.leftover ++ c).length 4 with hs | hl
  · rw [decodeStep_small rate s c hs]
    simp [decodedBytes]
  · rw [decodeStep_large rate s c hl]
    have hmul : ((s.leftover ++ c).take
        ((s.leftover ++ c).length / 4 * 4)).length % 4 = 0 := by
      rw [List.length_take]
      omega
    have hfl := groups4_flatten _ hmul
    simp only [decodedBytes, List.flatten_append, List.flatten_cons,
      List.flatten_nil, List.append_nil, hfl, List.append_assoc]
    rw [List.take_append_drop]

theorem contiguousFrom_snoc (rate : ℕ) :
    ∀ (l : List (ℚ × ℕ)) (t : ℚ) (x : ℚ × ℕ),
      contiguousFrom rate t l → x.1 = t + sumDur rate l →
      contiguousFrom rate t (l ++ [x])
  | [], t, x, _, hx => by
      refine ⟨?_, trivial⟩
      simpa [sumDur] using hx
  | e :: l, t, x, h, hx => by
      refine ⟨h.1, ?_⟩
      apply contiguousFrom_snoc rate l (t + entryDur rate e) x h.2
      rw [hx]
      simp only [sumDur, List.map_cons, List.sum_cons]
      ring

theorem decodeStep_sched (rate : ℕ) (t0 : ℚ) (s : DecState) (c : List Byte)
    (h1 : contiguousFrom rate t0 s.schedule)
    (h2 : s.nextStartTime = t0 + sumDur rate s.schedule) :
    contiguousFrom rate t0 (decodeStep rate s c).schedule
    ∧ (decodeStep rate s c).nextStartTime
        = t0 + sumDur rate (decodeStep rate s c).schedule := by
  rcases lt_or_le (s.leftover ++ c).length 4 with hs | hl
  · rw [decodeStep_small rate s c hs]
    exact ⟨h1, h2⟩
  · rw [decodeStep_large rate s c hl]
    refine ⟨?_, ?_⟩
    · exact contiguousFrom_snoc rate s.schedule t0 _ h1 h2
    · simp only [sumDur, List.map_append, List.sum_append, List.map_cons,
        List.map_nil, List.sum_cons, List.sum_nil, entryDur, h2]
      ring

theorem foldl_decode_count (rate : ℕ) :
    ∀ (chunks : List (List Byte)) (s : DecState),
      totalSamples (chunks.foldl (decodeStep rate) s) * 4
          + (chunks.foldl (decodeStep rate) s).leftover.length
        = totalSamples s * 4 + s.leftover.length + (chunks.map List.length).sum
  | [], s => by simp
  | c :: cs, s => by
      have ih := foldl_decode_count rate cs (decodeStep rate s c)
      have h1 := decodeStep_samples rate s c
      have h2 := decodeStep_leftover_len rate s c
      simp only [List.foldl_cons, List.map_cons, List.sum_cons] at ih ⊢
      rw [ih, h1, h2]
      omega

theorem foldl_decode_bytes (rate : ℕ) :
    ∀ (chunks : List (List Byte)) (s : DecState),
      decodedBytes (chunks.foldl (decodeStep rate) s)
          ++ (chunks.foldl (decodeStep rate) s).leftover
        = decodedBytes s ++ s.leftover ++ chunks.flatten
  | [], s => by simp
  | c :: cs, s => by
      have ih := foldl_decode_bytes rate cs (decodeStep rate s c)
      have h := decodeStep_bytes rate s c
      simp only [List.foldl_cons, List.flatten_cons] at ih ⊢
      rw [ih]
      rw [← List.append_assoc, h]

theorem foldl_decode_sched (rate : ℕ) (t0 : ℚ) :
    ∀ (chunks : List (List Byte)) (s : DecState),
      contiguousFrom rate t0 s.schedule →
      s.nextStartTime = t0 + sumDur rate s.schedule →
      contiguousFrom rate t0 (chunks.foldl (decodeStep rate) s).schedule
      ∧ (chunks.foldl (decodeStep rate) s).nextStartTime
          = t0 + sumDur rate (chunks.foldl (decodeStep rate) s).schedule
  | [], _, h1, h2 => ⟨h1, h2⟩
  | c :: cs, s, h1, h2 => by
      have hstep := decodeStep_sched rate t0 s c h1 h2
      exact foldl_decode_sched rate t0 cs (decodeStep rate s c) hstep.1 hstep.2

theorem foldl_decode_buffers_ne (rate : ℕ) :
    ∀ (chunks : List (List Byte)) (s : DecState),
      (∀ b ∈ s.allBuffers, b ≠ []) →
      ∀ b ∈ (chunks.foldl (decodeStep rate) s).allBuffers, b ≠ []
  | [], _, h => h
  | c :: cs, s, h => by
      refine foldl_decode_buffers_ne rate cs (decodeStep rate s c) ?_
      rcases lt_or_le (s.leftover ++ c).length 4 with hs | hl
      · rw [decodeStep_small rate s c hs]
        exact h
      · rw [decodeStep_large rate s c hl]
        intro b hb
        rcases List.mem_append.mp hb with hb | hb
        · exact h b hb
        · rcases List.mem_singleton.mp hb with rfl
          intro hemp
          have hcount :
              (groups4 ((s.leftover ++ c).take
                ((s.leftover ++ c).length / 4 * 4))).length
                = (s.leftover ++ c).length / 4 := by
            rw [groups4_length, List.length_take]
            omega
          rw [hemp] at hcount
          simp [List.length_append] at hcount hl
          omega

theorem contiguousFrom_getD (rate : ℕ) :
    ∀ (l : List (ℚ × ℕ)) (t : ℚ) (i : ℕ),
      contiguousFrom rate t l → i < l.length →
      (l.getD i (0, 0)).1 = t + sumDur rate (l.take i)
  | [], _, i, _, hi => by simp at hi
  | e :: l, t, 0, h, _ => by
      simpa [sumDur] using h.1
  | e :: l, t, i + 1, h, hi => by
      have ih := contiguousFrom_getD rate l (t + entryDur rate e) i h.2
        (by simpa using Nat.lt_of_succ_lt_succ hi)
      simp only [List.getD_cons_succ, List.take_succ_cons]
      rw [ih]
      simp only [sumDur, List.map_cons, List.sum_cons]
      ring

theorem take_succ_getD :
    ∀ (l : List (ℚ × ℕ)) (i : ℕ), i < l.length →
      l.take (i + 1) = l.take i ++ [l.getD i (0, 0)]
  | [], i, hi => by simp at hi
  | e :: l, 0, _ => by simp
  | e :: l, i + 1, hi => by
      have ih := take_succ_getD l i (by simpa using Nat.lt_of_succ_lt_succ hi)
      simp [List.take_succ_cons, ih]

theorem transitionEffect_transitioned_mono (s : Session)
    (ht : s.isAudioTransitioned = true) :
    (transitionEffect s).isAudioTransitioned = true := by
  unfold transitionEffect
  split
  · exact ht
  · split
    · split <;> simp [playAudio, stopStream]
    · exact ht

theorem step_transitioned_mono (s : Session) (e : Event)
    (he : e ≠ Event.newSession) (ht : s.isAudioTransitioned = true) :
    (step s e).isAudioTransitioned = true := by
  cases e with
  | effectFire => exact transitionEffect_transitioned_mono s ht
  | canplay => simpa [step] using ht
  | stopCall => simp [step, stop, stopAudio, stopStream, ht]
  | playCall => simp [step, play, playAudio, ht]
  | pauseCall => simp [step, pause, pauseAudio, ht]
  | rewindCall q =>
      simp only [step, rewind, ht, if_true]
      unfold rewindAudio
      split <;> simp [playAudio, ht]
  | tick q =>
      simp only [step]
      split <;> simp [ht]
  | newSession => exact absurd rfl he

theorem flips_eq_zero :
    ∀ (es : List Event) (s : Session), s.isAudioTransitioned = true →
      Event.newSession ∉ es → flips s es = 0
  | [], _, _, _ => rfl
  | e :: es, s, ht, hes => by
      have he : e ≠ Event.newSession := by
        intro h
        exact hes (by simp [h])
      have ht1 := step_transitioned_mono s e he ht
      have hrest := flips_eq_zero es (step s e) ht1
        (fun h => hes (List.mem_cons_of_mem _ h))
      simp [flips, ht, hrest]

theorem flips_le_one :
    ∀ (es : List Event) (s : Session), Event.newSession ∉ es →
      flips s es ≤ 1
  | [], _, _ => by simp [flips]
  | e :: es, s, hes => by
      have hes1 : Event.newSession ∉ es :=
        fun h => hes (List.mem_cons_of_mem _ h)
      by_cases hflip : s.isAudioTransitioned = false
          ∧ (step s e).isAudioTransitioned = true
      · have hz := flips_eq_zero es (step s e) hflip.2 hes1
        simp [flips, hflip, hz]
      · have hrec := flips_le_one es (step s e) hes1
        simp only [flips, if_neg hflip]
        omega

/-- C1: byte conservation of the decoder — for every input byte sequence,
however it is split into chunks delivered to an uninterrupted streaming
session, after the last chunk the total number of decoded samples times 4
plus the final leftover length equals the total number of input bytes, and
the decoded bytes followed by the leftover are exactly the input bytes in
order (no byte dropped or reordered). -/
theorem c1_byte_conservation (rate : ℕ) (t0 : ℚ) (chunks : List (List Byte)) :
    totalSamples (runSession rate t0 chunks) * 4
        + (runSession rate t0 chunks).leftover.length
      = (chunks.map List.length).sum
    ∧ decodedBytes (runSession rate t0 chunks)
        ++ (runSession rate t0 chunks).leftover
      = chunks.flatten := by
  constructor
  · have h1 := foldl_decode_count rate chunks (initState t0)
    simpa [runSession, initState, totalSamples] using h1
  · have h2 := foldl_decode_bytes rate chunks (initState t0)
    simpa [runSession, initState, decodedBytes] using h2

/-- C2: scheduling contiguity — in any session, each scheduled buffer
starts exactly where the previous one ends (start(i+1) = start(i) +
samples(i)/rate), and every start time is the initial engine time `t0`
plus the total duration of all previously scheduled buffers. -/
theorem c2_scheduling_contiguity (rate : ℕ) (t0 : ℚ) (chunks : List (List Byte))
    (i : ℕ) (h : i + 1 < (runSession rate t0 chunks).schedule.length) :
    ((runSession rate t0 chunks).schedule.getD (i + 1) (0, 0)).1
        = ((runSession rate t0 chunks).schedule.getD i (0, 0)).1
          + (((runSession rate t0 chunks).schedule.getD i (0, 0)).2 : ℚ)
            / (rate : ℚ)
    ∧ ((runSession rate t0 chunks).schedule.getD i (0, 0)).1
        = t0 + sumDur rate ((runSession rate t0 chunks).schedule.take i) := by
  have hcont : contiguousFrom rate t0 (runSession rate t0 chunks).schedule := by
    refine (foldl_decode_sched rate t0 chunks (initState t0) ?_ ?_).1
    · exact trivial
    · simp [initState, sumDur]
  have hi : i < (runSession rate t0 chunks).schedule.length :=
    Nat.lt_of_succ_lt h
  have hg1 := contiguousFrom_getD rate _ t0 (i + 1) hcont h
  have hg0 := contiguousFrom_getD rate _ t0 i hcont hi
  have htake := take_succ_getD _ i hi
  refine ⟨?_, hg0⟩
  rw [hg1, hg0, htake]
  simp [sumDur, entryDur]
  ring

/-- C2 witness: a concrete two-chunk session at rate 2. -/
theorem c2_scheduling_contiguity_witness :
    0 + 1 < (runSession 2 0 [[0, 0, 0, 0], [1, 1, 1, 1]]).schedule.length
    ∧ (((runSession 2 0 [[0, 0, 0, 0], [1, 1, 1, 1]]).schedule.getD (0 + 1)
          (0, 0)).1
        = ((runSession 2 0 [[0, 0, 0, 0], [1, 1, 1, 1]]).schedule.getD 0
            (0, 0)).1
          + (((runSession 2 0 [[0, 0, 0, 0], [1, 1, 1, 1]]).schedule.getD 0
              (0, 0)).2 : ℚ) / ((2 : ℕ) : ℚ)
      ∧ ((runSession 2 0 [[0, 0, 0, 0], [1, 1, 1, 1]]).schedule.getD 0
          (0, 0)).1
        = 0 + sumDur 2 ((runSession 2 0 [[0, 0, 0, 0], [1, 1, 1, 1]]).schedule.take 0)) :=
  ⟨by decide,
    c2_scheduling_contiguity 2 0 [[0, 0, 0, 0], [1, 1, 1, 1]] 0 (by decide)⟩

/-- C6: Scenario A — a single 8-byte chunk at sample rate 24000 (with the
engine clock at 0 when streaming begins) decodes to exactly 2 samples,
exactly one buffer is scheduled, its start time is 0, and the session
duration is 2/24000 seconds. -/
theorem c6_scenario_a :
    totalSamples (runSession 24000 0 [[1, 2, 3, 4, 5, 6, 7, 8]]) = 2
    ∧ (runSession 24000 0 [[1, 2, 3, 4, 5, 6, 7, 8]]).schedule = [((0 : ℚ), 2)]
    ∧ (runSession 24000 0 [[1, 2, 3, 4, 5, 6, 7, 8]]).totalDuration
        = (2 : ℚ) / 24000 := by
  have hrun : runSession 24000 0 [[1, 2, 3, 4, 5, 6, 7, 8]]
      = decodeStep 24000 (initState 0) [1, 2, 3, 4, 5, 6, 7, 8] := rfl
  have hstate : decodeStep 24000 (initState 0) [1, 2, 3, 4, 5, 6, 7, 8]
      = { leftover := [], nextStartTime := (2 : ℚ) / 24000,
          totalDuration := (2 : ℚ) / 24000,
          allBuffers := [[[1, 2, 3, 4], [5, 6, 7, 8]]],
          schedule := [((0 : ℚ), 2)] } := by
    rw [decodeStep_large 24000 (initState 0) [1, 2, 3, 4, 5, 6, 7, 8] (by decide)]
    norm_num [initState, groups4]
  rw [hrun, hstate]
  exact ⟨rfl, rfl, rfl⟩

/-- C7: decoder small-input behaviour and leftover bound — a decode step
with fewer than 4 bytes available in total produces no samples, schedules
nothing and retains all bytes; after any step the leftover is at most 3
bytes; the bytes consumed by a step are a multiple of 4; and for chunks of
3 then 5 bytes, the first step yields 0 samples with leftover [1,2,3] and
after the second step the session holds 2 samples with no leftover. -/
theorem c7_decoder_small_input (rate : ℕ) (s : DecState) (c : List Byte) :
    (s.leftover.length + c.length < 4 →
      (decodeStep rate s c).allBuffers = s.allBuffers
      ∧ (decodeStep rate s c).schedule = s.schedule
      ∧ (decodeStep rate s c).leftover = s.leftover ++ c)
    ∧ (decodeStep rate s c).leftover.length ≤ 3
    ∧ 4 ∣ s.leftover.length + c.length - (decodeStep rate s c).leftover.length
    ∧ totalSamples (runSession 24000 0 [[1, 2, 3]]) = 0
    ∧ (runSession 24000 0 [[1, 2, 3]]).leftover = [1, 2, 3]
    ∧ totalSamples (runSession 24000 0 [[1, 2, 3], [4, 5, 6, 7, 8]]) = 2
    ∧ (runSession 24000 0 [[1, 2, 3], [4, 5, 6, 7, 8]]).leftover = [] := by
  refine ⟨?_, ?_, ?_, by decide, by decide, by decide, by decide⟩
  · intro h
    have hs : (s.leftover ++ c).length < 4 := by
      simpa [List.length_append] using h
    rw [decodeStep_small rate s c hs]
    exact ⟨rfl, rfl, rfl⟩
  · rw [decodeStep_leftover_len]
    omega
  · rw [decodeStep_leftover_len]
    omega

/-- C7 witness: a 2-byte chunk into a fresh decoder keeps everything as
leftover. -/
theorem c7_decoder_small_input_witness :
    (initState 0).leftover.length + [9, 9].length < 4
    ∧ (decodeStep 24000 (initState 0) [9, 9]).leftover
        = (initState 0).leftover ++ [9, 9] :=
  ⟨by decide,
    ((c7_decoder_small_input 24000 (initState 0) [9, 9]).1 (by decide)).2.2⟩

/-- C5 counterexample: a session whose stream signals completion after
delivering zero chunks never builds the accumulated buffer — the
`while (!result.done ...)` loop body, which contains the finalization, is
never entered — so the buffer is not built (let alone exactly once) for
every session whose stream signals completion. -/
theorem c5_accumulation_counterexample :
    (streamAudioRun 24000 0 true []).2 = none := rfl

/-- C5 (amended): for every session with transition enabled whose stream
delivers at least one chunk and then signals completion, the accumulated
buffer built at that moment is the in-order concatenation of all decoded
non-empty chunks, its sample count is the sum of their sample counts, it
is built exactly once (the single finalization of the run), and the
reported duration is total samples / sample rate. -/
theorem c5_accumulation (rate : ℕ) (t0 : ℚ) (chunks : List (List Byte))
    (hne : chunks ≠ []) :
    ∃ buf dur,
      (streamAudioRun rate t0 true chunks).2 = some (buf, dur)
      ∧ buf = (runSession rate t0 chunks).allBuffers.flatten
      ∧ buf.length
          = ((runSession rate t0 chunks).allBuffers.map List.length).sum
      ∧ dur = (buf.length : ℚ) / (rate : ℚ)
      ∧ ∀ b ∈ (runSession rate t0 chunks).allBuffers, b ≠ [] := by
  refine ⟨(runSession rate t0 chunks).allBuffers.flatten,
    (((runSession rate t0 chunks).allBuffers.flatten.length : ℚ) / (rate : ℚ)),
    ?_, rfl, ?_, rfl, ?_⟩
  · have hemp : chunks.isEmpty = false := by
      cases chunks with
      | nil => exact absurd rfl hne
      | cons c cs => rfl
    simp [streamAudioRun, finalize, hemp]
  · exact List.length_flatten _
  · exact foldl_decode_buffers_ne rate chunks (initState t0)
      (by simp [initState])

/-- C5 witness: a one-chunk session. -/
theorem c5_accumulation_witness :
    ([[1, 2, 3, 4]] : List (List Byte)) ≠ []
    ∧ ∃ buf dur,
        (streamAudioRun 24000 0 true [[1, 2, 3, 4]]).2 = some (buf, dur)
        ∧ buf = (runSession 24000 0 [[1, 2, 3, 4]]).allBuffers.flatten
        ∧ buf.length
            = ((runSession 24000 0 [[1, 2, 3, 4]]).allBuffers.map List.length).sum
        ∧ dur = (buf.length : ℚ) / ((24000 : ℕ) : ℚ)
        ∧ ∀ b ∈ (runSession 24000 0 [[1, 2, 3, 4]]).allBuffers, b ≠ [] :=
  ⟨by decide, c5_accumulation 24000 0 [[1, 2, 3, 4]] (by decide)⟩

/-- C3: transition handoff — when the transition fires from a Ready state
(transition enabled, audio ready), the current playback position is
captured, the HTML5 engine is sought to it and the session becomes
transitioned; if playing, the streaming engine is stopped and the HTML5
engine started at that position; if paused, the HTML5 engine is left as it
was (paused) at that position; and no later event short of a new session
makes the session enter the transitioned state again. -/
theorem c3_transition_handoff (s : Session)
    (hen : s.enableTransition = true) (hready : s.isAudioReady = true) :
    (transitionEffect s).html5Pos = s.currentTime
    ∧ (transitionEffect s).isAudioTransitioned = true
    ∧ (s.isPlaying = true →
        (transitionEffect s).webActive = false
        ∧ (transitionEffect s).html5Playing = true
        ∧ (transitionEffect s).isPlaying = true)
    ∧ (s.isPlaying = false →
        (transitionEffect s).html5Playing = s.html5Playing
        ∧ (transitionEffect s).webActive = s.webActive
        ∧ (transitionEffect s).isPlaying = false)
    ∧ ∀ es : List Event, Event.newSession ∉ es →
        flips (transitionEffect s) es = 0 := by
  obtain ⟨et, ip, ir, itr, ct, wa, ws, hp5, hpl⟩ := s
  cases et with
  | false => simp at hen
  | true =>
    cases ir with
    | false => simp at hready
    | true =>
      cases ip with
      | false =>
          refine ⟨rfl, rfl, ?_, ?_, ?_⟩
          · intro hp
            simp at hp
          · intro _
            exact ⟨rfl, rfl, rfl⟩
          · intro es hes
            exact flips_eq_zero es _ rfl hes
      | true =>
          refine ⟨rfl, rfl, ?_, ?_, ?_⟩
          · intro _
            exact ⟨rfl, rfl, rfl⟩
          · intro hp
            simp at hp
          · intro es hes
            exact flips_eq_zero es _ rfl hes

/-- C3 witness: a playing Ready session at position 5. -/
theorem c3_transition_handoff_witness :
    sReady.enableTransition = true ∧ sReady.isAudioReady = true
    ∧ (transitionEffect sReady).html5Pos = sReady.currentTime :=
  ⟨rfl, rfl, (c3_transition_handoff sReady rfl rfl).1⟩

/-- C4: Transitioned is reached at most once per session (any event trace
without a new streaming call enters the transitioned state at most once),
it is preserved by every event other than a new streaming call, and a new
streaming call resets the state to Streaming with the ready flag
cleared. -/
theorem c4_transition_exactly_once (s : Session) (es : List Event) (e : Event)
    (hes : Event.newSession ∉ es) :
    flips s es ≤ 1
    ∧ (s.isAudioTransitioned = true → e ≠ Event.newSession →
        transitionState (step s e) = TState.Transitioned)
    ∧ transitionState (step s Event.newSession) = TState.Streaming
    ∧ (step s Event.newSession).isAudioReady = false := by
  refine ⟨flips_le_one es s hes, ?_, ?_, ?_⟩
  · intro ht he
    have hmono := step_transitioned_mono s e he ht
    simp [transitionState, hmono]
  · simp [step, resetState, stopStream, transitionState]
  · simp [step, resetState, stopStream]

/-- C4 witness: a Ready session under a stop event trace. -/
theorem c4_transition_exactly_once_witness :
    Event.newSession ∉ [Event.stopCall] ∧ flips sReady [Event.stopCall] ≤ 1 :=
  ⟨by decide,
    (c4_transition_exactly_once sReady [Event.stopCall] Event.playCall
      (by decide)).1⟩

/-- C8: idempotent stop — stop is idempotent as a state transformer (so
any number of immediate repetitions, with or without active handles, acts
like one; the source try/catch swallows errors from already-finished
handles, so the call is total) and after each call the play-state is
false. -/
theorem c8_stop_idempotent (s : Session) (n : ℕ) (hn : 1 ≤ n) :
    stop (stop s) = stop s ∧ (stop^[n] s).isPlaying = false := by
  have hidem : stop (stop s) = stop s := by
    obtain ⟨et, ip, ir, itr, ct, wa, ws, hp, hpl⟩ := s
    cases itr <;> rfl
  refine ⟨hidem, ?_⟩
  obtain ⟨m, rfl⟩ : ∃ m, n = m + 1 := ⟨n - 1, by omega⟩
  rw [Function.iterate_succ_apply']
  simp [stop]

/-- C8 witness: two successive stops on a transitioned session. -/
theorem c8_stop_idempotent_witness :
    1 ≤ 2 ∧ (stop (stop sAfter) = stop sAfter
      ∧ (stop^[2] sAfter).isPlaying = false) :=
  ⟨by decide, c8_stop_idempotent sAfter 2 (by decide)⟩

/-- C9: rewind — a no-op (the whole session state, both engines included,
is unchanged) unless the session is transitioned; once transitioned, it
moves the HTML5 engine position back by `q` clamped below at 0, and
resumes playback exactly when the play-state was playing. -/
theorem c9_rewind (q : ℚ) (s : Session) :
    (s.isAudioTransitioned = false → rewind q s = s)
    ∧ (s.isAudioTransitioned = true →
        (rewind q s).html5Pos = max 0 (s.html5Pos - q)
        ∧ (s.isPlaying = true →
            (rewind q s).html5Playing = true ∧ (rewind q s).isPlaying = true)
        ∧ (s.isPlaying = false →
            (rewind q s).html5Playing = s.html5Playing
            ∧ (rewind q s).isPlaying = false)) := by
  constructor
  · intro h
    simp [rewind, h]
  · intro h
    refine ⟨?_, ?_, ?_⟩
    · simp only [rewind, h, if_true]
      unfold rewindAudio
      split <;> simp [playAudio]
    · intro hp
      simp [rewind, h, hp, rewindAudio, playAudio]
    · intro hp
      simp [rewind, h, hp, rewindAudio]

/-- C9 witness: rewinding a transitioned session by 10 seconds. -/
theorem c9_rewind_witness :
    sAfter.isAudioTransitioned = true
    ∧ (rewind 10 sAfter).html5Pos = max 0 (sAfter.html5Pos - 10) :=
  ⟨rfl, ((c9_rewind 10 sAfter).2 rfl).1⟩

/-- C10 (implicit): after the transition, stop() halts playback, sets the
play-state to false and resets the HTML5 position to 0, while pause()
leaves the position unchanged; hence stop-then-play restarts from the
beginning and pause-then-play resumes at the paused position. -/
theorem c10_stop_resets_position (s : Session)
    (ht : s.isAudioTransitioned = true) :
    (stop s).html5Pos = 0 ∧ (stop s).isPlaying = false
    ∧ (stop s).html5Playing = false
    ∧ (pause s).html5Pos = s.html5Pos ∧ (pause s).isPlaying = false
    ∧ (play (stop s)).html5Pos = 0 ∧ (play (stop s)).html5Playing = true
    ∧ (play (pause s)).html5Pos = s.html5Pos
    ∧ (play (pause s)).html5Playing = true := by
  simp [stop, play, pause, stopAudio, pauseAudio, playAudio, ht]

/-- C10 witness: a transitioned playing session at position 5. -/
theorem c10_stop_resets_position_witness :
    sAfter.isAudioTransitioned = true ∧ (stop sAfter).html5Pos = 0 :=
  ⟨rfl, (c10_stop_resets_position sAfter rfl).1⟩

end StreamAudio
